import Mathlib

/-!
Shallow embedding of the spond_attendance transform-and-deduplicate pipeline
(src/spond_attendance/transform.py and src/spond_attendance/io.py).

Modelling conventions:
* A pandas DataFrame row of the long table is an `AttendanceRecord`; the
  `_source_rank` helper column is carried as an explicit `Nat` paired with the
  record, and "dropping the column" is projecting the pair away.
* A session-column cell is `Option ℚ`: `some q` stands for a cell whose
  `pd.to_numeric(..., errors="coerce")` coercion is the number `q` (covering
  numeric cells and numeric strings); `none` stands for a missing cell (NaN)
  or a non-numeric string, both of which coerce to NaN.
* `date.today()` is an ambient input of the Python code; it is passed as the
  explicit `today` parameter.
* Python strings are compared by code points; the comparison is re-implemented
  on `String.data` so that it evaluates by kernel reduction.
* `pandas.sort_values` sorts ascending on the given keys; its tie order among
  equal keys is an implementation detail (numpy quicksort), embedded here as a
  stable insertion sort.  No theorem below depends on the tie order between
  records whose sort keys are equal.
-/

namespace SpondAttendance

/-- Calendar date (year, month, day) as Python `datetime.date`; Python orders
dates lexicographically on the triple. -/
structure Date where
  year : Nat
  month : Nat
  day : Nat
deriving DecidableEq

/-- Boolean strict order on naturals, used to build lexicographic orders. -/
def natLt (a b : Nat) : Bool := Nat.blt a b

/-- Lexicographic strict order on a pair, given strict orders on components. -/
def pairLt {α β : Type} [DecidableEq α] (ltA : α → α → Bool) (ltB : β → β → Bool)
    (p q : α × β) : Bool :=
  if p.1 = q.1 then ltB p.2 q.2 else ltA p.1 q.1

/-- Strict order transported along a map. -/
def ltOn {α β : Type} (f : α → β) (lt : β → β → Bool) (a b : α) : Bool :=
  lt (f a) (f b)

/-- Non-strict order obtained from a strict one: `a ≤ b` iff `¬ b < a`. -/
def leFromLt {α : Type} (lt : α → α → Bool) (a b : α) : Bool := ! lt b a

/-- Strict order on characters: Python compares by code point. -/
def chLt (a b : Char) : Bool := natLt a.toNat b.toNat

/-- Lexicographic strict order on lists (Python string comparison on the
underlying character sequences). -/
def listLex {α : Type} [DecidableEq α] (lt : α → α → Bool) : List α → List α → Bool
  | [], [] => false
  | [], _ :: _ => true
  | _ :: _, [] => false
  | x :: xs, y :: ys => if x = y then listLex lt xs ys else lt x y

/-- Python string `<` (code-point lexicographic). -/
def strLt (a b : String) : Bool := listLex chLt a.data b.data

/-- Python date `<`. -/
def dateToTuple (d : Date) : Nat × Nat × Nat := (d.year, d.month, d.day)

/-- Boolean strict order on dates, lexicographic on (year, month, day). -/
def dateLt (a b : Date) : Bool := ltOn dateToTuple (pairLt natLt (pairLt natLt natLt)) a b

/-- Python `str.startswith`, re-implemented on the character lists. -/
def strStarts (s pre : String) : Bool := pre.data.isPrefixOf s.data

/-- Python `str.strip()` on the character list (ASCII/unicode whitespace at
both ends, as `Char.isWhitespace`). -/
def trimChars (cs : List Char) : List Char :=
  ((cs.dropWhile Char.isWhitespace).reverse.dropWhile Char.isWhitespace).reverse

/-- Python `.strip().rstrip("*").strip()` applied to a row-0 session-name cell,
from `_extract_session_info` (transform.py line 42). -/
def cleanSessionName (s : String) : String :=
  String.mk (trimChars ((trimChars s.data).reverse.dropWhile (fun c => c = '*')).reverse)

/-- Row-0 cell of a session column turned into the session display name.
A missing cell (NaN) stringifies to "nan" under Python `str`. -/
def sessionNameOf (row0 : Option String) : String :=
  match row0 with
  | none => cleanSessionName "nan"
  | some s => cleanSessionName s

/-- English weekday names indexed by Zeller's congruence value (0 = Saturday),
matching Python `date.strftime("%A")`. -/
def dayNames : List String :=
  ["Saturday", "Sunday", "Monday", "Tuesday", "Wednesday", "Thursday", "Friday"]

/-- Weekday of a Gregorian date via Zeller's congruence, as
`session_date.strftime("%A")` in transform.py lines 83-85. -/
def dayOfWeekName (d : Date) : String :=
  let ym := if d.month ≤ 2 then (d.year - 1, d.month + 12) else (d.year, d.month)
  let k := ym.1 % 100
  let j := ym.1 / 100
  let h := (d.day + (13 * (ym.2 + 1)) / 5 + k + k / 4 + j / 4 + 5 * j) % 7
  dayNames.getD h "Saturday"

/-- A session-column cell as seen through `pd.to_numeric(..., errors="coerce")`:
`some q` is a cell with numeric coercion `q`; `none` coerces to NaN. -/
abbrev Cell := Option ℚ

/-- The attended conversion of transform.py lines 90-93:
`pd.to_numeric(errors="coerce").fillna(0).astype(int)`.  NaN becomes 0 and
`astype(int)` truncates the numeric value toward zero (numpy C cast). -/
def coerceAttended (c : Cell) : Int :=
  match c with
  | none => 0
  | some q => q.num.tdiv q.den

/-- One row of the long-format output of `transform_file`. -/
structure AttendanceRecord where
  name : String
  session_name : String
  session_date : Date
  session_day_of_week : String
  attended : Int
deriving DecidableEq

/-- One non-`Name` column of a raw wide export.  `sessionDate` is `some d`
when `_parse_session_column` accepts the header as a datetime whose calendar
date is `d` (native datetime/Timestamp headers, or strings that parse after
stripping a pandas `.N` duplicate suffix); `none` when the header is not
datetime-like.  `row0` is the reserved session-name cell of row 0 (`none` =
NaN); `cells` are the data rows 1.. of the column. -/
structure Column where
  sessionDate : Option Date
  row0 : Option String
  cells : List Cell
deriving DecidableEq

/-- A raw wide export: the `Name` column (row-0 cell and data-row cells,
`none` = NaN) plus the remaining columns in sheet order.  Each column's
`cells` list is aligned positionally with `names`. -/
structure WideTable where
  nameRow0 : Option String
  names : List (Option String)
  cols : List Column
deriving DecidableEq

/-- Shape of a column without its attendance cells: what `transform_file`'s
record *count* can depend on. -/
def colShape (c : Column) : Option Date × Option String := (c.sessionDate, c.row0)

/-- The disclaimer marker of transform.py line 66: rows whose `Name` starts
with this literal are non-member footer rows. -/
def disclaimerMark : String := "*Attendance"

/-- `_extract_session_info` (transform.py lines 31-45): map each column whose
header parses as a datetime to (column position, session name, session date),
in column order.  Column positions stand for the pandas column labels, which
are unique after pandas' duplicate-header mangling. -/
def sessionsFrom (j : Nat) : List Column → List (Nat × String × Date)
  | [] => []
  | c :: rest =>
    match c.sessionDate with
    | some d => (j, sessionNameOf c.row0, d) :: sessionsFrom (j + 1) rest
    | none => sessionsFrom (j + 1) rest

/-- The session-info list of a table (the dict built by
`_extract_session_info`, in insertion order). -/
def _extract_session_info (t : WideTable) : List (Nat × String × Date) :=
  sessionsFrom 0 t.cols

/-- The member-row filter of transform.py lines 63-67: keep data rows whose
`Name` is present and does not start with the disclaimer marker. -/
def keptName (n : Option String) : Bool :=
  match n with
  | none => false
  | some s => ! strStarts s disclaimerMark

/-- Data rows surviving the member filter, as (row position, name). -/
def keptFrom (i : Nat) : List (Option String) → List (Nat × String)
  | [] => []
  | n :: rest =>
    match n with
    | none => keptFrom (i + 1) rest
    | some s =>
      if strStarts s disclaimerMark then keptFrom (i + 1) rest
      else (i, s) :: keptFrom (i + 1) rest

/-- The attendance cell of column `j`, data row `i`. -/
def cellAt (t : WideTable) (j i : Nat) : Cell :=
  ((t.cols.getD j ⟨none, none, []⟩).cells).getD i none

/-- One melted output row for session column `s` and member row `r`:
`name` from the row, `session_name`/`session_date` mapped back from the
session info, the derived weekday, and the coerced attended value. -/
def meltBody (t : WideTable) (s : Nat × String × Date) (r : Nat × String) :
    AttendanceRecord :=
  { name := r.2
    session_name := s.2.1
    session_date := s.2.2
    session_day_of_week := dayOfWeekName s.2.2
    attended := coerceAttended (cellAt t s.1 r.1) }

/-- `transform_file` (transform.py lines 48-97): wide-to-long melt.  Raises
(`Except.error`) when no session columns are found; otherwise emits, for each
session column (melt iterates `value_vars` in order) and each surviving member
row, one record with the coerced attended value. -/
def transform_file (t : WideTable) : Except String (List AttendanceRecord) :=
  let info := _extract_session_info t
  if info.isEmpty then Except.error "No session columns found in file"
  else Except.ok (info.flatMap fun s => (keptFrom 0 t.names).map (meltBody t s))

/-- The deduplication key (name, session_name, session_date) of
`_deduplicate`'s `drop_duplicates(subset=...)`. -/
abbrev Key := String × String × Date

/-- Key of a long-format record. -/
def keyOf (r : AttendanceRecord) : Key := (r.name, r.session_name, r.session_date)

/-- Key of a rank-tagged record. -/
def rkey (p : AttendanceRecord × Nat) : Key := keyOf p.1

/-- Insertion into a sorted list (stable: an element being inserted goes in
front of equal elements already present only when `le` says so). -/
def insLe {α : Type} (le : α → α → Bool) (x : α) : List α → List α
  | [] => [x]
  | y :: ys => if le x y then x :: y :: ys else y :: insLe le x ys

/-- Stable insertion sort, the embedding of `pandas.sort_values`. -/
def sortLe {α : Type} (le : α → α → Bool) : List α → List α
  | [] => []
  | x :: xs => insLe le x (sortLe le xs)

/-- Non-strict order on the `_source_rank` column, for
`df.sort_values("_source_rank")`. -/
def rankLe (p q : AttendanceRecord × Nat) : Bool := Nat.ble p.2 q.2

/-- Sort key of `_deduplicate`'s final
`sort_values(["session_date", "session_name", "name"])`. -/
def outKey (r : AttendanceRecord) : Date × String × String :=
  (r.session_date, r.session_name, r.name)

/-- Strict lexicographic order on the output sort key. -/
def outKeyLt : Date × String × String → Date × String × String → Bool :=
  pairLt dateLt (pairLt strLt strLt)

/-- Non-strict ascending order on records by (session_date, session_name,
name). -/
def recLe (a b : AttendanceRecord) : Bool := leFromLt (ltOn outKey outKeyLt) a b

/-- `drop_duplicates(subset=["name","session_name","session_date"],
keep="first")`: keep the first occurrence of every key, in order. -/
def dedupKeys (seen : List Key) : List (AttendanceRecord × Nat) → List (AttendanceRecord × Nat)
  | [] => []
  | x :: xs =>
    if rkey x ∈ seen then dedupKeys seen xs
    else x :: dedupKeys (rkey x :: seen) xs

/-- `_deduplicate` (transform.py lines 132-149): sort by `_source_rank`, keep
the first record per key, drop the rank column, drop records whose
`session_date` is not strictly before `today`, and sort the result ascending
by (session_date, session_name, name). -/
def _deduplicate (today : Date) (df : List (AttendanceRecord × Nat)) : List AttendanceRecord :=
  let sorted := sortLe rankLe df
  let uniq := dedupKeys [] sorted
  let dropped := uniq.map Prod.fst
  let filtered := dropped.filter fun r => dateLt r.session_date today
  sortLe recLe filtered

/-- `merge_with_existing` (transform.py lines 120-129).  The Python function
mutates both argument frames in place by assigning a `_source_rank` column (0
on `existing`, 1 on `new`) before concatenating; the explicit-state embedding
returns the two post-call argument frames together with the merged result, in
which the rank column has been dropped again by `_deduplicate`. -/
def merge_with_existing (today : Date) (existing new : List AttendanceRecord) :
    List (AttendanceRecord × Nat) × List (AttendanceRecord × Nat) × List AttendanceRecord :=
  let e := existing.map fun r => (r, 0)
  let n := new.map fun r => (r, 1)
  (e, n, _deduplicate today (e ++ n))

/-- The Excel temp/lock marker of io.py line 61: files starting with this are
silently ignored by discovery. -/
def tempMark : String := "~$"

/-- `MONTH_MAP` of io.py lines 13-27. -/
def monthMap : List (List Char × Nat) :=
  [("jan".data, 1), ("feb".data, 2), ("mar".data, 3), ("apr".data, 4),
   ("may".data, 5), ("jun".data, 6), ("jul".data, 7), ("aug".data, 8),
   ("sep".data, 9), ("sept".data, 9), ("oct".data, 10), ("nov".data, 11),
   ("dec".data, 12)]

/-- Month abbreviation lookup (`MONTH_MAP.get(month_str.lower())`; the name is
already lowercased by the caller). -/
def lookupMonth (m : List Char) : Option Nat :=
  match monthMap.find? (fun p => p.1 = m) with
  | some p => some p.2
  | none => none

/-- ASCII lowercase letter test, the `[a-z]` class of `FILENAME_PATTERN`
(matched case-insensitively, so applied after lowercasing). -/
def isLowerAlpha (c : Char) : Bool := 'a' ≤ c && c ≤ 'z'

/-- ASCII digit test, the `\d` class of `FILENAME_PATTERN`. -/
def isDigitCh (c : Char) : Bool := '0' ≤ c && c ≤ '9'

/-- Numeric value of an ASCII digit. -/
def digitVal (c : Char) : Nat := c.toNat - '0'.toNat

/-- The literal `spond_attendance_` of `FILENAME_PATTERN`, reversed, for
matching against the reversed filename. -/
def patRevSig : List Char := "spond_attendance_".data.reverse

/-- Match `re.search` of `spond_attendance_([a-z]+)_(\d{2})\.xlsx$` (with
`re.IGNORECASE`) against the reversed, lowercased character list of the
filename.  Because the pattern is anchored at the end and the month group is a
letter run delimited by non-letters, a successful search is exactly a
decomposition of the tail; returns (month letters in reading order, 2-digit
year value). -/
def matchRev : List Char → Option (List Char × Nat)
  | 'x' :: 's' :: 'l' :: 'x' :: '.' :: d2 :: d1 :: '_' :: rest =>
    if isDigitCh d1 && isDigitCh d2 then
      let mrev := rest.takeWhile isLowerAlpha
      let rest2 := rest.dropWhile isLowerAlpha
      if mrev.isEmpty then none
      else if patRevSig.isPrefixOf rest2 then
        some (mrev.reverse, 10 * digitVal d1 + digitVal d2)
      else none
    else none
  | _ => none

/-- `parse_file_date` (io.py lines 36-49) on the file's base name: extract the
month/year from the filename, returning the first of that month; `none` on a
pattern mismatch or an unrecognized month abbreviation (both raise
`ValueError` in the source, which discovery treats alike). -/
def parse_file_date (name : String) : Option Date :=
  match matchRev ((name.data.map Char.toLower).reverse) with
  | none => none
  | some my =>
    match lookupMonth my.1 with
    | none => none
    | some mo => some ⟨2000 + my.2, mo, 1⟩

/-- A candidate `.xlsx` that discovery must reject: not a temp/lock artifact
and `parse_file_date` fails on it. -/
def isUnexpected (f : String) : Bool :=
  ! strStarts f tempMark && (parse_file_date f).isNone

/-- Python string `≤` for `sorted(unexpected)`. -/
def strLe (a b : String) : Bool := leFromLt strLt a b

/-- Ascending order on accepted files by parsed date, for
`files.sort(key=parse_file_date)` (stable). -/
def fileDateLe (a b : String) : Bool :=
  leFromLt (ltOn (fun f => (parse_file_date f).getD ⟨0, 0, 0⟩) dateLt) a b

/-- `discover_files` (io.py lines 52-74) over the directory's `*.xlsx` listing
(in glob order): silently skip `~$` temp artifacts; if any remaining file
fails `parse_file_date`, fail the whole call with the sorted list of every
offending name; otherwise return the accepted files sorted oldest-first. -/
def discover_files (listing : List String) : Except (List String) (List String) :=
  let cands := listing.filter fun f => ! strStarts f tempMark
  let unexpected := cands.filter fun f => (parse_file_date f).isNone
  let files := cands.filter fun f => (parse_file_date f).isSome
  if unexpected.isEmpty then Except.ok (sortLe fileDateLe files)
  else Except.error (sortLe strLe unexpected)

/-- `save_state` (io.py lines 93-97): overwrite the state file with the JSON
object whose `processed_files` entry is the sorted list of the set.  The state
file's decoded content is modelled as `Option (List String)` (`none` = no
state file); the prior content is ignored (replaced wholesale). -/
def save_state (prior : Option (List String)) (processed : Finset String) :
    Option (List String) :=
  some (processed.sort (· ≤ ·))

/-- `load_state` (io.py lines 84-90): empty set when no state file exists,
otherwise the set of the stored `processed_files` list. -/
def load_state (stateFile : Option (List String)) : Finset String :=
  match stateFile with
  | none => ∅
  | some l => l.toFinset

/-! ### Strict-order infrastructure -/

/-- A Boolean strict linear order: irreflexive, transitive, and connected
(two elements neither of which is below the other are equal). -/
def IsStrictLt {α : Type} (lt : α → α → Bool) : Prop :=
  (∀ a, lt a a = false) ∧
  (∀ a b c, lt a b = true → lt b c = true → lt a c = true) ∧
  (∀ a b, lt a b = false → lt b a = false → a = b)

theorem bool_eq_false {b : Bool} (h : ¬ b = true) : b = false := by
  cases b
  · rfl
  · exact absurd rfl h

theorem natLt_iff {a b : Nat} : natLt a b = true ↔ a < b := by
  simp [natLt, Nat.blt_eq]

theorem natLt_strict : IsStrictLt natLt := by
  refine ⟨?_, ?_, ?_⟩
  · intro a
    apply bool_eq_false
    intro h
    exact absurd (natLt_iff.mp h) (lt_irrefl a)
  · intro a b c hab hbc
    exact natLt_iff.mpr (lt_trans (natLt_iff.mp hab) (natLt_iff.mp hbc))
  · intro a b hab hba
    have h1 : ¬ a < b := fun h => by simp [natLt_iff.mpr h] at hab
    have h2 : ¬ b < a := fun h => by simp [natLt_iff.mpr h] at hba
    omega

theorem ltOn_strict {α β : Type} (f : α → β) (lt : β → β → Bool)
    (hf : ∀ a b, f a = f b → a = b) (h : IsStrictLt lt) : IsStrictLt (ltOn f lt) := by
  obtain ⟨hirr, htr, hconn⟩ := h
  refine ⟨fun a => hirr (f a), fun a b c => htr (f a) (f b) (f c), ?_⟩
  intro a b hab hba
  exact hf a b (hconn (f a) (f b) hab hba)

theorem pairLt_strict {α β : Type} [DecidableEq α] {ltA : α → α → Bool}
    {ltB : β → β → Bool} (hA : IsStrictLt ltA) (hB : IsStrictLt ltB) :
    IsStrictLt (pairLt ltA ltB) := by
  obtain ⟨hA1, hA2, hA3⟩ := hA
  obtain ⟨hB1, hB2, hB3⟩ := hB
  have hAasym : ∀ a b, ltA a b = true → ltA b a = true → False := by
    intro a b h1 h2
    have := hA2 a b a h1 h2
    rw [hA1 a] at this
    exact Bool.false_ne_true this
  refine ⟨?_, ?_, ?_⟩
  · intro p
    simp [pairLt, hB1]
  · intro p q r hpq hqr
    simp only [pairLt] at hpq hqr ⊢
    by_cases h1 : p.1 = q.1
    · rw [if_pos h1] at hpq
      by_cases h2 : q.1 = r.1
      · rw [if_pos h2] at hqr
        rw [if_pos (h1.trans h2)]
        exact hB2 _ _ _ hpq hqr
      · rw [if_neg h2] at hqr
        have hpr : ¬ p.1 = r.1 := fun h => h2 (h1.symm.trans h)
        rw [if_neg hpr, h1]
        exact hqr
    · rw [if_neg h1] at hpq
      by_cases h2 : q.1 = r.1
      · rw [if_pos h2] at hqr
        have hpr : ¬ p.1 = r.1 := fun h => h1 (h.trans h2.symm)
        rw [if_neg hpr, ← h2]
        exact hpq
      · rw [if_neg h2] at hqr
        by_cases hpr : p.1 = r.1
        · exfalso
          rw [hpr] at hpq
          exact hAasym _ _ hqr hpq
        · rw [if_neg hpr]
          exact hA2 _ _ _ hpq hqr
  · intro p q hpq hqp
    simp only [pairLt] at hpq hqp
    by_cases h1 : p.1 = q.1
    · rw [if_pos h1] at hpq
      rw [if_pos h1.symm] at hqp
      exact Prod.ext h1 (hB3 _ _ hpq hqp)
    · rw [if_neg h1] at hpq
      rw [if_neg (fun h => h1 h.symm)] at hqp
      exact absurd (hA3 _ _ hpq hqp) h1

theorem listLex_strict {α : Type} [DecidableEq α] {lt : α → α → Bool}
    (h : IsStrictLt lt) : IsStrictLt (listLex lt) := by
  obtain ⟨h1, h2, h3⟩ := h
  have hasym : ∀ a b, lt a b = true → lt b a = true → False := by
    intro a b ha hb
    have := h2 a b a ha hb
    rw [h1 a] at this
    exact Bool.false_ne_true this
  refine ⟨?_, ?_, ?_⟩
  · intro l
    induction l with
    | nil => rfl
    | cons x xs ih => simpa [listLex] using ih
  · intro a
    induction a with
    | nil =>
      intro b c hab hbc
      cases b with
      | nil => exact hbc
      | cons y ys =>
        cases c with
        | nil => simp [listLex] at hbc
        | cons z zs => rfl
    | cons x xs ih =>
      intro b c hab hbc
      cases b with
      | nil => simp [listLex] at hab
      | cons y ys =>
        cases c with
        | nil => simp [listLex] at hbc
        | cons z zs =>
          simp only [listLex] at hab hbc ⊢
          by_cases hxy : x = y
          · rw [if_pos hxy] at hab
            by_cases hyz : y = z
            · rw [if_pos hyz] at hbc
              rw [if_pos (hxy.trans hyz)]
              exact ih ys zs hab hbc
            · rw [if_neg hyz] at hbc
              have hxz : ¬ x = z := fun h => hyz (hxy.symm.trans h)
              rw [if_neg hxz, hxy]
              exact hbc
          · rw [if_neg hxy] at hab
            by_cases hyz : y = z
            · rw [if_pos hyz] at hbc
              have hxz : ¬ x = z := fun h => hxy (h.trans hyz.symm)
              rw [if_neg hxz, ← hyz]
              exact hab
            · rw [if_neg hyz] at hbc
              by_cases hxz : x = z
              · exfalso
                rw [hxz] at hab
                exact hasym _ _ hbc hab
              · rw [if_neg hxz]
                exact h2 _ _ _ hab hbc
  · intro a
    induction a with
    | nil =>
      intro b hab _hba
      cases b with
      | nil => rfl
      | cons y ys => simp [listLex] at hab
    | cons x xs ih =>
      intro b hab hba
      cases b with
      | nil => simp [listLex] at hba
      | cons y ys =>
        simp only [listLex] at hab hba
        by_cases hxy : x = y
        · rw [if_pos hxy] at hab
          rw [if_pos hxy.symm] at hba
          rw [hxy, ih ys hab hba]
        · rw [if_neg hxy] at hab
          rw [if_neg (fun h => hxy h.symm)] at hba
          exact absurd (h3 x y hab hba) hxy

theorem chLt_strict : IsStrictLt chLt :=
  ltOn_strict Char.toNat natLt
    (fun a b h => Char.eq_of_val_eq (UInt32.toNat.inj h)) natLt_strict

theorem strLt_strict : IsStrictLt strLt :=
  ltOn_strict String.data (listLex chLt)
    (fun _ _ h => String.ext h) (listLex_strict chLt_strict)

theorem dateToTuple_inj (a b : Date) (h : dateToTuple a = dateToTuple b) : a = b := by
  cases a
  cases b
  simp [dateToTuple] at h
  simp [h.1, h.2.1, h.2.2]

theorem dateLt_strict : IsStrictLt dateLt :=
  ltOn_strict dateToTuple (pairLt natLt (pairLt natLt natLt)) dateToTuple_inj
    (pairLt_strict natLt_strict (pairLt_strict natLt_strict natLt_strict))

theorem outKeyLt_strict : IsStrictLt outKeyLt :=
  pairLt_strict dateLt_strict (pairLt_strict strLt_strict strLt_strict)

theorem bnot_eq_true {b : Bool} : (! b) = true ↔ b = false := by
  cases b <;> simp

theorem leFromLt_total {β : Type} {lt : β → β → Bool} (h : IsStrictLt lt)
    (x y : β) : leFromLt lt x y = true ∨ leFromLt lt y x = true := by
  obtain ⟨h1, h2, _⟩ := h
  by_cases hyx : lt y x = true
  · right
    rw [leFromLt, bnot_eq_true]
    apply bool_eq_false
    intro hxy
    have := h2 x y x hxy hyx
    rw [h1 x] at this
    exact Bool.false_ne_true this
  · left
    rw [leFromLt, bnot_eq_true]
    exact bool_eq_false hyx

theorem leFromLt_trans {β : Type} {lt : β → β → Bool} (h : IsStrictLt lt)
    (x y z : β) : leFromLt lt x y = true → leFromLt lt y z = true →
    leFromLt lt x z = true := by
  obtain ⟨h1, h2, h3⟩ := h
  simp only [leFromLt, bnot_eq_true]
  intro hyx hzy
  apply bool_eq_false
  intro hzx
  by_cases hyz : lt y z = true
  · have := h2 y z x hyz hzx
    rw [hyx] at this
    exact Bool.false_ne_true this
  · have heq := h3 z y hzy (bool_eq_false hyz)
    rw [heq] at hzx
    rw [hzx] at hyx
    exact Bool.false_ne_true hyx.symm

/-! ### Stable insertion sort lemmas -/

theorem mem_insLe {α : Type} {le : α → α → Bool} {x a : α} {l : List α} :
    a ∈ insLe le x l ↔ a = x ∨ a ∈ l := by
  induction l with
  | nil => simp [insLe]
  | cons y ys ih =>
    by_cases h : le x y = true
    · simp [insLe, h]
    · simp only [insLe, if_neg h, List.mem_cons, ih]
      tauto

theorem mem_sortLe {α : Type} {le : α → α → Bool} {a : α} {l : List α} :
    a ∈ sortLe le l ↔ a ∈ l := by
  induction l with
  | nil => simp [sortLe]
  | cons x xs ih => simp [sortLe, mem_insLe, ih]

theorem perm_insLe {α : Type} (le : α → α → Bool) (x : α) (l : List α) :
    (insLe le x l).Perm (x :: l) := by
  induction l with
  | nil => exact List.Perm.refl _
  | cons y ys ih =>
    by_cases h : le x y = true
    · simp [insLe, h]
    · simp only [insLe, if_neg h]
      exact ((List.perm_cons y).mpr ih).trans (List.Perm.swap x y ys)

theorem perm_sortLe {α : Type} (le : α → α → Bool) (l : List α) :
    (sortLe le l).Perm l := by
  induction l with
  | nil => exact List.Perm.refl _
  | cons x xs ih =>
    exact (perm_insLe le x (sortLe le xs)).trans ((List.perm_cons x).mpr ih)

theorem pairwise_insLe {α : Type} {le : α → α → Bool}
    (htr : ∀ a b c, le a b = true → le b c = true → le a c = true)
    (htot : ∀ a b, le a b = true ∨ le b a = true)
    {x : α} {l : List α} (h : List.Pairwise (fun a b => le a b = true) l) :
    List.Pairwise (fun a b => le a b = true) (insLe le x l) := by
  induction l with
  | nil => simp [insLe]
  | cons y ys ih =>
    rw [List.pairwise_cons] at h
    by_cases hxy : le x y = true
    · simp only [insLe, if_pos hxy]
      rw [List.pairwise_cons]
      refine ⟨?_, List.pairwise_cons.mpr h⟩
      intro z hz
      rcases List.mem_cons.mp hz with hz | hz
      · rw [hz]; exact hxy
      · exact htr x y z hxy (h.1 z hz)
    · simp only [insLe, if_neg hxy]
      rw [List.pairwise_cons]
      refine ⟨?_, ih h.2⟩
      intro z hz
      rcases mem_insLe.mp hz with hz | hz
      · rw [hz]
        rcases htot x y with hx | hx
        · exact absurd hx hxy
        · exact hx
      · exact h.1 z hz

theorem pairwise_sortLe {α : Type} {le : α → α → Bool}
    (htr : ∀ a b c, le a b = true → le b c = true → le a c = true)
    (htot : ∀ a b, le a b = true ∨ le b a = true) (l : List α) :
    List.Pairwise (fun a b => le a b = true) (sortLe le l) := by
  induction l with
  | nil => simp [sortLe]
  | cons x xs ih => exact pairwise_insLe htr htot ih

/-! ### drop_duplicates lemmas -/

theorem dedupKeys_subset {seen : List Key} {l : List (AttendanceRecord × Nat)}
    {x : AttendanceRecord × Nat} (h : x ∈ dedupKeys seen l) : x ∈ l := by
  induction l generalizing seen with
  | nil => simp [dedupKeys] at h
  | cons a t ih =>
    by_cases hs : rkey a ∈ seen
    · simp only [dedupKeys, if_pos hs] at h
      exact List.mem_cons_of_mem a (ih h)
    · simp only [dedupKeys, if_neg hs] at h
      rcases List.mem_cons.mp h with hx | hx
      · exact hx ▸ List.mem_cons_self a t
      · exact List.mem_cons_of_mem a (ih hx)

theorem dedupKeys_not_seen {seen : List Key} {l : List (AttendanceRecord × Nat)}
    {x : AttendanceRecord × Nat} (h : x ∈ dedupKeys seen l) : rkey x ∉ seen := by
  induction l generalizing seen with
  | nil => simp [dedupKeys] at h
  | cons a t ih =>
    by_cases hs : rkey a ∈ seen
    · simp only [dedupKeys, if_pos hs] at h
      exact ih h
    · simp only [dedupKeys, if_neg hs] at h
      rcases List.mem_cons.mp h with hx | hx
      · rw [hx]
        exact hs
      · intro hmem
        exact ih hx (List.mem_cons_of_mem _ hmem)

theorem dedupKeys_pairwise (seen : List Key) (l : List (AttendanceRecord × Nat)) :
    List.Pairwise (fun a b => rkey a ≠ rkey b) (dedupKeys seen l) := by
  induction l generalizing seen with
  | nil => simp [dedupKeys]
  | cons a t ih =>
    by_cases hs : rkey a ∈ seen
    · simp only [dedupKeys, if_pos hs]
      exact ih seen
    · simp only [dedupKeys, if_neg hs]
      rw [List.pairwise_cons]
      refine ⟨?_, ih (rkey a :: seen)⟩
      intro z hz heq
      exact dedupKeys_not_seen hz (heq ▸ List.mem_cons_self _ _)

theorem dedupKeys_min {l : List (AttendanceRecord × Nat)}
    (hp : List.Pairwise (fun a b : AttendanceRecord × Nat => a.2 ≤ b.2) l)
    {seen : List Key} {x : AttendanceRecord × Nat} (h : x ∈ dedupKeys seen l) :
    ∀ y ∈ l, rkey y = rkey x → x.2 ≤ y.2 := by
  induction l generalizing seen with
  | nil => simp [dedupKeys] at h
  | cons a t ih =>
    rw [List.pairwise_cons] at hp
    by_cases hs : rkey a ∈ seen
    · simp only [dedupKeys, if_pos hs] at h
      intro y hy hky
      rcases List.mem_cons.mp hy with hy | hy
      · exfalso
        apply dedupKeys_not_seen h
        rw [← hky, hy]
        exact hs
      · exact ih hp.2 h y hy hky
    · simp only [dedupKeys, if_neg hs] at h
      rcases List.mem_cons.mp h with hx | hx
      · intro y hy hky
        rcases List.mem_cons.mp hy with hy | hy
        · rw [hx, hy]
        · rw [hx]
          exact hp.1 y hy
      · intro y hy hky
        rcases List.mem_cons.mp hy with hy | hy
        · exfalso
          apply dedupKeys_not_seen hx
          rw [← hky, hy]
          exact List.mem_cons_self _ _
        · exact ih hp.2 hx y hy hky

theorem dedupKeys_exists_key {l : List (AttendanceRecord × Nat)} {seen : List Key}
    {k : Key} (hns : k ∉ seen) (hex : ∃ y ∈ l, rkey y = k) :
    ∃ x ∈ dedupKeys seen l, rkey x = k := by
  induction l generalizing seen with
  | nil =>
    obtain ⟨y, hy, _⟩ := hex
    exact absurd hy (List.not_mem_nil y)
  | cons a t ih =>
    by_cases hs : rkey a ∈ seen
    · simp only [dedupKeys, if_pos hs]
      obtain ⟨y, hy, hk⟩ := hex
      rcases List.mem_cons.mp hy with hy | hy
      · exact absurd (hk ▸ hy ▸ hs) hns
      · exact ih hns ⟨y, hy, hk⟩
    · simp only [dedupKeys, if_neg hs]
      by_cases hk : rkey a = k
      · exact ⟨a, List.mem_cons_self a _, hk⟩
      · obtain ⟨y, hy, hky⟩ := hex
        rcases List.mem_cons.mp hy with hy | hy
        · exact absurd (hy ▸ hky) hk
        · have hns2 : k ∉ rkey a :: seen := by
            intro hmem
            rcases List.mem_cons.mp hmem with hmem | hmem
            · exact hk hmem.symm
            · exact hns hmem
          obtain ⟨x, hx, hkx⟩ := ih hns2 ⟨y, hy, hky⟩
          exact ⟨x, List.mem_cons_of_mem a hx, hkx⟩

/-- The rank sort of `_deduplicate` leaves the list pairwise ordered by
`_source_rank`. -/
theorem sorted_ranks (df : List (AttendanceRecord × Nat)) :
    List.Pairwise (fun a b : AttendanceRecord × Nat => a.2 ≤ b.2)
      (sortLe rankLe df) := by
  have htr : ∀ a b c : AttendanceRecord × Nat,
      rankLe a b = true → rankLe b c = true → rankLe a c = true := by
    intro a b c hab hbc
    simp only [rankLe, Nat.ble_eq] at hab hbc ⊢
    omega
  have htot : ∀ a b : AttendanceRecord × Nat,
      rankLe a b = true ∨ rankLe b a = true := by
    intro a b
    simp only [rankLe, Nat.ble_eq]
    omega
  exact (pairwise_sortLe htr htot df).imp (by simp [rankLe, Nat.ble_eq])

/-- Every record of `_deduplicate today df` stems from a rank-tagged input
record whose rank is minimal among the input records sharing its key. -/
theorem mem_deduplicate {today : Date} {df : List (AttendanceRecord × Nat)}
    {r : AttendanceRecord} (h : r ∈ _deduplicate today df) :
    dateLt r.session_date today = true ∧
      ∃ k, (r, k) ∈ df ∧ ∀ p ∈ df, rkey p = keyOf r → k ≤ p.2 := by
  simp only [_deduplicate] at h
  rw [mem_sortLe] at h
  rw [List.mem_filter] at h
  obtain ⟨hmem, hdate⟩ := h
  rw [List.mem_map] at hmem
  obtain ⟨p, hp, hpr⟩ := hmem
  refine ⟨hdate, p.2, ?_, ?_⟩
  · have := dedupKeys_subset hp
    rw [mem_sortLe] at this
    have hpp : p = (r, p.2) := by
      rw [← hpr]
    rw [← hpp]
    exact this
  · intro q hq hkq
    have hq2 : q ∈ sortLe rankLe df := mem_sortLe.mpr hq
    have := dedupKeys_min (sorted_ranks df) hp q hq2
    apply this
    rw [hkq, ← hpr]
    rfl

/-- Conversely, every input key whose date is before `today` survives into
`_deduplicate today df`. -/
theorem deduplicate_key_survives {today : Date} {df : List (AttendanceRecord × Nat)}
    {k : Key} (hex : ∃ p ∈ df, rkey p = k) (hdate : dateLt k.2.2 today = true) :
    ∃ r ∈ _deduplicate today df, keyOf r = k := by
  have hex2 : ∃ p ∈ sortLe rankLe df, rkey p = k := by
    obtain ⟨p, hp, hk⟩ := hex
    exact ⟨p, mem_sortLe.mpr hp, hk⟩
  obtain ⟨x, hx, hkx⟩ := dedupKeys_exists_key (List.not_mem_nil k) hex2
  refine ⟨x.1, ?_, ?_⟩
  · simp only [_deduplicate]
    rw [mem_sortLe, List.mem_filter]
    constructor
    · rw [List.mem_map]
      exact ⟨x, hx, rfl⟩
    · have hd : x.1.session_date = k.2.2 := by
        have : keyOf x.1 = k := hkx
        rw [← this]
        rfl
      rw [hd]
      exact hdate
  · exact hkx

/-! ### transform_file lemmas -/

theorem transform_file_ok (t : WideTable) (h : _extract_session_info t ≠ []) :
    transform_file t = Except.ok ((_extract_session_info t).flatMap fun s =>
      (keptFrom 0 t.names).map (meltBody t s)) := by
  cases hi : _extract_session_info t with
  | nil => exact absurd hi h
  | cons s ss => simp [transform_file, hi]

theorem length_melt {α β : Type} (info : List α) (kept : List β)
    (f : α → β → AttendanceRecord) :
    (info.flatMap fun s => kept.map (f s)).length = info.length * kept.length := by
  induction info with
  | nil => simp
  | cons s ss ih =>
    simp only [List.flatMap_cons, List.length_append, List.length_map, ih,
      List.length_cons]
    ring

theorem keptFrom_length (i : Nat) (names : List (Option String))
    (h : ∀ n ∈ names, keptName n = true) :
    (keptFrom i names).length = names.length := by
  induction names generalizing i with
  | nil => rfl
  | cons n rest ih =>
    cases n with
    | none =>
      have := h none (List.mem_cons_self _ _)
      simp [keptName] at this
    | some s =>
      have hk := h (some s) (List.mem_cons_self _ _)
      simp only [keptName, bnot_eq_true] at hk
      simp [keptFrom, hk, ih (i + 1) fun n hn => h n (List.mem_cons_of_mem _ hn)]

theorem keptFrom_nil (i : Nat) (names : List (Option String))
    (h : ∀ n ∈ names, keptName n = false) : keptFrom i names = [] := by
  induction names generalizing i with
  | nil => rfl
  | cons n rest ih =>
    cases n with
    | none => exact ih (i + 1) fun n hn => h n (List.mem_cons_of_mem _ hn)
    | some s =>
      have hk := h (some s) (List.mem_cons_self _ _)
      simp only [keptName] at hk
      have hs : strStarts s disclaimerMark = true := by
        cases hv : strStarts s disclaimerMark
        · rw [hv] at hk
          simp at hk
        · rfl
      simp only [keptFrom, if_pos hs]
      exact ih (i + 1) fun n hn => h n (List.mem_cons_of_mem _ hn)

theorem sessionsFrom_congr (cols cols' : List Column)
    (h : cols.map colShape = cols'.map colShape) :
    ∀ j, sessionsFrom j cols = sessionsFrom j cols' := by
  induction cols generalizing cols' with
  | nil =>
    cases cols' with
    | nil => intro j; rfl
    | cons c' t' => simp at h
  | cons c t ih =>
    cases cols' with
    | nil => simp at h
    | cons c' t' =>
      simp only [List.map_cons, List.cons.injEq] at h
      obtain ⟨h1, h2⟩ := h
      have hsd : c.sessionDate = c'.sessionDate := congrArg Prod.fst h1
      have hr0 : c.row0 = c'.row0 := congrArg Prod.snd h1
      intro j
      simp only [sessionsFrom]
      rw [hsd, hr0]
      cases c'.sessionDate with
      | some d => rw [ih t' h2 (j + 1)]
      | none => exact ih t' h2 (j + 1)

theorem cellAt_none (t : WideTable)
    (hcells : ∀ c ∈ t.cols, ∀ x ∈ c.cells, x = none) (j i : Nat) :
    cellAt t j i = none := by
  simp only [cellAt]
  by_cases hj : j < t.cols.length
  · rw [List.getD_eq_getElem _ _ hj]
    have hc : t.cols[j] ∈ t.cols := List.getElem_mem hj
    by_cases hi : i < (t.cols[j]).cells.length
    · rw [List.getD_eq_getElem _ _ hi]
      exact hcells _ hc _ (List.getElem_mem hi)
    · apply List.getD_eq_default
      omega
  · have h1 : t.cols.getD j ⟨none, none, []⟩ = ⟨none, none, []⟩ := by
      apply List.getD_eq_default
      omega
    rw [h1]
    simp

theorem flatMap_const_nil {α β : Type} (l : List α) :
    (l.flatMap fun _ => ([] : List β)) = [] := by
  induction l with
  | nil => rfl
  | cons x xs ih => simpa using ih

/-! ### Concrete fixtures -/

/-- A processing date used as the ambient `date.today()` in concrete runs. -/
def wToday : Date := ⟨2026, 10, 12⟩

/-- A past-dated attendance record from the existing accumulated table. -/
def wAlice : AttendanceRecord :=
  ⟨"Alice", "Training", ⟨2024, 1, 10⟩, "Wednesday", 1⟩

/-- The same key as `wAlice` but with a conflicting attended value, as new
data would supply it. -/
def wAliceNew : AttendanceRecord :=
  ⟨"Alice", "Training", ⟨2024, 1, 10⟩, "Wednesday", 0⟩

/-- A future-dated record present in the existing accumulated table. -/
def wFuture : AttendanceRecord :=
  ⟨"Alice", "Training", ⟨2999, 1, 1⟩, "Friday", 1⟩

/-- The same future key with a conflicting attended value in the new data. -/
def wFutureNew : AttendanceRecord :=
  ⟨"Alice", "Training", ⟨2999, 1, 1⟩, "Friday", 0⟩

/-- A rank-tagged input with two records for one key, the older source listed
second. -/
def wDf : List (AttendanceRecord × Nat) := [(wAliceNew, 1), (wAlice, 0)]

/-- A one-member, one-session wide table whose attendance cell holds the
numeric value 2. -/
def bugTable : WideTable :=
  ⟨none, [some "Alice"], [⟨some ⟨2024, 3, 9⟩, some "Training", [some 2]⟩]⟩

/-- A two-member table with one session column and one filler column, and no
attendance recorded anywhere. -/
def tW : WideTable :=
  ⟨none, [some "Alice", some "Bob"],
   [⟨some ⟨2024, 3, 9⟩, some "Session A*", [none, none]⟩,
    ⟨none, none, [none, none]⟩]⟩

/-- The same table shape as `tW` with entirely different attendance cells. -/
def tW2 : WideTable :=
  ⟨none, [some "Alice", some "Bob"],
   [⟨some ⟨2024, 3, 9⟩, some "Session A*", [some 1, some 1]⟩,
    ⟨none, none, [some 5, none]⟩]⟩

/-- A table with a session column whose every candidate member row is
filtered out (missing name, disclaimer row). -/
def tN : WideTable :=
  ⟨none, [none, some "*Attendance has not been confirmed"],
   [⟨some ⟨2024, 3, 9⟩, some "Training", [none, none]⟩]⟩

/-- A directory listing with one conforming file, one non-conforming file and
one temp artifact. -/
def wListing : List String :=
  ["spond_attendance_jan_25.xlsx", "random_report.xlsx", "~$junk.xlsx"]

/-! ### Claim theorems -/

/-- Claim C1 (code bug witness): `transform_file` does not clamp `attended`
to 0/1.  On a table whose only attendance cell is the numeric value 2, which
is neither missing nor equal to 1, the emitted record carries `attended = 2`:
`pd.to_numeric(...).fillna(0).astype(int)` keeps any numeric value as-is,
contradicting the comment at transform.py line 90 ("Convert attended:
1 -> 1, NaN/anything else -> 0") and the specified {0,1} range. -/
theorem transform_attended_not_binary :
    ∃ l, transform_file bugTable = Except.ok l ∧
      l.map AttendanceRecord.attended = [2] :=
  ⟨_, rfl, by decide⟩

/-- Claim C2: `_deduplicate` keeps at most one record per
(name, session_name, session_date) key, and every surviving record comes from
an input record whose `_source_rank` is minimal among the input records
sharing its key (the chronologically oldest source wins). -/
theorem dedup_unique_min_rank (today : Date) (df : List (AttendanceRecord × Nat)) :
    List.Pairwise (fun a b => keyOf a ≠ keyOf b) (_deduplicate today df) ∧
    ∀ r ∈ _deduplicate today df, ∃ k, (r, k) ∈ df ∧
      ∀ p ∈ df, keyOf p.1 = keyOf r → k ≤ p.2 := by
  constructor
  · simp only [_deduplicate]
    have h1 := dedupKeys_pairwise ([] : List Key) (sortLe rankLe df)
    have h2 : List.Pairwise (fun a b : AttendanceRecord => keyOf a ≠ keyOf b)
        ((dedupKeys [] (sortLe rankLe df)).map Prod.fst) :=
      List.pairwise_map.mpr (h1.imp fun h => h)
    have h3 : List.Pairwise (fun a b : AttendanceRecord => keyOf a ≠ keyOf b)
        (((dedupKeys [] (sortLe rankLe df)).map Prod.fst).filter
          fun r => dateLt r.session_date today) :=
      List.Pairwise.sublist (List.filter_sublist _) h2
    have hp := perm_sortLe recLe
      (((dedupKeys [] (sortLe rankLe df)).map Prod.fst).filter
        fun r => dateLt r.session_date today)
    exact (hp.pairwise_iff fun h e => h e.symm).mpr h3
  · intro r hr
    obtain ⟨-, k, hk, hmin⟩ := mem_deduplicate hr
    exact ⟨k, hk, hmin⟩

/-- Witness for C2: on the concrete input `wDf` the survivor `wAlice` indeed
stems from the minimal-rank source. -/
theorem dedup_unique_min_rank_witness :
    ∃ k, (wAlice, k) ∈ wDf ∧ ∀ p ∈ wDf, keyOf p.1 = keyOf wAlice → k ≤ p.2 :=
  (dedup_unique_min_rank wToday wDf).2 wAlice (by decide)

/-- Claim C3 counterexample: a key present in `existing` does NOT always
retain its attended value in the result of `merge_with_existing` — when its
`session_date` is not before the processing date, the temporal filter of
`_deduplicate` removes the record entirely, conflicting value or not. -/
theorem merge_future_key_dropped :
    (merge_with_existing wToday [wFuture] [wFutureNew]).2.2 = [] ∧
    ¬ ∃ r ∈ (merge_with_existing wToday [wFuture] [wFutureNew]).2.2,
        keyOf r = keyOf wFuture ∧ r.attended = wFuture.attended := by
  decide

/-- Claim C3 (amended): for any key of the existing accumulated table whose
`session_date` is strictly before the processing date, the merge result
contains that key and every result record with that key carries existing's
attended value, even when the new data supplies a conflicting value. -/
theorem merge_existing_wins (today : Date) (existing new : List AttendanceRecord)
    (k : Key) (a : Int)
    (hval : ∀ r ∈ existing, keyOf r = k → r.attended = a)
    (hkey : ∃ r ∈ existing, keyOf r = k)
    (hdate : dateLt k.2.2 today = true) :
    (∃ r ∈ (merge_with_existing today existing new).2.2, keyOf r = k) ∧
    ∀ r ∈ (merge_with_existing today existing new).2.2, keyOf r = k →
      r.attended = a := by
  have hres : (merge_with_existing today existing new).2.2 =
      _deduplicate today ((existing.map fun r => (r, 0)) ++
        (new.map fun r => (r, 1))) := rfl
  obtain ⟨r0, hr0, hk0⟩ := hkey
  have h0 : ((r0, 0) : AttendanceRecord × Nat) ∈
      (existing.map fun r => (r, 0)) ++ (new.map fun r => (r, 1)) :=
    List.mem_append_left _ (List.mem_map.mpr ⟨r0, hr0, rfl⟩)
  constructor
  · rw [hres]
    exact deduplicate_key_survives ⟨(r0, 0), h0, hk0⟩ hdate
  · intro r hr hkr
    rw [hres] at hr
    obtain ⟨-, kk, hkk, hmin⟩ := mem_deduplicate hr
    have hle : kk ≤ 0 := by
      apply hmin (r0, 0) h0
      show keyOf r0 = keyOf r
      rw [hk0, hkr]
    have hkk0 : kk = 0 := Nat.le_zero.mp hle
    rw [hkk0] at hkk
    rcases List.mem_append.mp hkk with h | h
    · rw [List.mem_map] at h
      obtain ⟨r1, hr1, heq⟩ := h
      have hre : r1 = r := congrArg Prod.fst heq
      rw [← hre]
      apply hval r1 hr1
      rw [hre, hkr]
    · rw [List.mem_map] at h
      obtain ⟨r1, _, heq⟩ := h
      have : (1 : Nat) = 0 := congrArg Prod.snd heq
      exact absurd this (by simp)

/-- Witness for the amended C3 on concrete data: existing's value 1 survives
against new's conflicting 0. -/
theorem merge_existing_wins_witness :
    (∃ r ∈ (merge_with_existing wToday [wAlice] [wAliceNew]).2.2,
        keyOf r = keyOf wAlice) ∧
    ∀ r ∈ (merge_with_existing wToday [wAlice] [wAliceNew]).2.2,
      keyOf r = keyOf wAlice → r.attended = 1 :=
  merge_existing_wins wToday [wAlice] [wAliceNew] (keyOf wAlice) 1
    (by decide) (by decide) (by decide)

/-- Claim C4: after conflict resolution, `_deduplicate` never retains a
record whose `session_date` is not strictly before the processing date,
regardless of input and source ranks. -/
theorem dedup_only_past (today : Date) (df : List (AttendanceRecord × Nat)) :
    ∀ r ∈ _deduplicate today df, dateLt r.session_date today = true :=
  fun _ hr => (mem_deduplicate hr).1

/-- Witness for C4 at a concrete input with a surviving record. -/
theorem dedup_only_past_witness : dateLt wAlice.session_date wToday = true :=
  dedup_only_past wToday wDf wAlice (by decide)

/-- Claim C5: on a wide table with at least one session column whose every
data row passes the member filter, `transform_file` succeeds and emits
exactly S × M records (S session columns, M member rows); the count is
invariant under changing the attendance cells (any table of the same shape
yields the same count); and a member with no attendance recorded still gets
records, with `attended = 0` throughout when no attendance is recorded. -/
theorem transform_record_count (t t' : WideTable)
    (hS : _extract_session_info t ≠ [])
    (hall : ∀ n ∈ t.names, keptName n = true)
    (hnames : t'.names = t.names)
    (hcols : t'.cols.map colShape = t.cols.map colShape) :
    ∃ l l', transform_file t = Except.ok l ∧ transform_file t' = Except.ok l' ∧
      l.length = (_extract_session_info t).length * t.names.length ∧
      l'.length = l.length ∧
      ((∀ c ∈ t.cols, ∀ x ∈ c.cells, x = none) → ∀ r ∈ l, r.attended = 0) := by
  have hinfo : _extract_session_info t' = _extract_session_info t := by
    simp only [_extract_session_info]
    exact sessionsFrom_congr t'.cols t.cols hcols 0
  have hS' : _extract_session_info t' ≠ [] := by
    rw [hinfo]
    exact hS
  refine ⟨_, _, transform_file_ok t hS, transform_file_ok t' hS', ?_, ?_, ?_⟩
  · rw [length_melt, keptFrom_length 0 t.names hall]
  · rw [length_melt, length_melt, hinfo, hnames]
  · intro hcells r hr
    rw [List.mem_flatMap] at hr
    obtain ⟨s, _, hmem⟩ := hr
    rw [List.mem_map] at hmem
    obtain ⟨rr, _, heq⟩ := hmem
    rw [← heq]
    show coerceAttended (cellAt t s.1 rr.1) = 0
    rw [cellAt_none t hcells]
    rfl

/-- Witness for C5: 2 members × 1 session column yields 2 records for both
the all-empty table and a same-shaped table with different cells. -/
theorem transform_record_count_witness :
    ∃ l l', transform_file tW = Except.ok l ∧ transform_file tW2 = Except.ok l' ∧
      l.length = (_extract_session_info tW).length * tW.names.length ∧
      l'.length = l.length ∧
      ((∀ c ∈ tW.cols, ∀ x ∈ c.cells, x = none) → ∀ r ∈ l, r.attended = 0) :=
  transform_record_count tW tW2 (by decide) (by decide) (by decide) (by decide)

/-- Claim C6: when the directory holds any non-conforming `.xlsx` (other than
silently ignored `~$` artifacts), `discover_files` fails as a whole with one
aggregated error that lists exactly the offending names — no file is
accepted. -/
theorem discover_rejects_all (listing : List String)
    (h : ∃ f ∈ listing, isUnexpected f = true) :
    ∃ bad, discover_files listing = Except.error bad ∧
      ∀ f, f ∈ bad ↔ f ∈ listing ∧ isUnexpected f = true := by
  obtain ⟨f0, hf0, hu⟩ := h
  simp only [isUnexpected, Bool.and_eq_true] at hu
  have hf0u : f0 ∈ (listing.filter fun f => ! strStarts f tempMark).filter
      fun f => (parse_file_date f).isNone :=
    List.mem_filter.mpr ⟨List.mem_filter.mpr ⟨hf0, hu.1⟩, hu.2⟩
  have hempty : ((listing.filter fun f => ! strStarts f tempMark).filter
      fun f => (parse_file_date f).isNone).isEmpty = false := by
    cases hc : (listing.filter fun f => ! strStarts f tempMark).filter
        fun f => (parse_file_date f).isNone with
    | nil =>
      rw [hc] at hf0u
      exact absurd hf0u (List.not_mem_nil f0)
    | cons a t => rfl
  refine ⟨sortLe strLe ((listing.filter fun f => ! strStarts f tempMark).filter
      fun f => (parse_file_date f).isNone), ?_, ?_⟩
  · simp only [discover_files, hempty]
    simp
  · intro f
    rw [mem_sortLe, List.mem_filter, List.mem_filter]
    simp [isUnexpected, Bool.and_eq_true, and_assoc]

/-- Witness for C6 on a concrete listing with one offender. -/
theorem discover_rejects_all_witness :
    ∃ bad, discover_files wListing = Except.error bad ∧
      ∀ f, f ∈ bad ↔ f ∈ wListing ∧ isUnexpected f = true :=
  discover_rejects_all wListing (by decide)

/-- Claim C7: the table returned by `_deduplicate` is sorted ascending by
(session_date, session_name, name) for every input. -/
theorem dedup_sorted_output (today : Date) (df : List (AttendanceRecord × Nat)) :
    List.Pairwise (fun a b => recLe a b = true) (_deduplicate today df) := by
  simp only [_deduplicate]
  apply pairwise_sortLe
  · intro a b c
    exact leFromLt_trans outKeyLt_strict (outKey a) (outKey b) (outKey c)
  · intro a b
    exact leFromLt_total outKeyLt_strict (outKey a) (outKey b)

/-- Claim C8: `save_state` followed by `load_state` returns exactly the saved
set of filenames, for any set and regardless of the prior persisted state
(which is replaced wholesale). -/
theorem state_round_trip (prior : Option (List String)) (s : Finset String) :
    load_state (save_state prior s) = s := by
  simp [load_state, save_state, Finset.sort_toFinset]

/-- Claim C9: `merge_with_existing` mutates both caller frames in place:
after the call the existing frame carries its original records each tagged
with `_source_rank` 0 and the new frame its original records tagged 1, while
the returned merged table (`.2.2`, of record type without a rank field) has
the rank column dropped. -/
theorem merge_tags_argument_frames (today : Date)
    (existing new : List AttendanceRecord) :
    (merge_with_existing today existing new).1.map Prod.fst = existing ∧
    (∀ p ∈ (merge_with_existing today existing new).1, p.2 = 0) ∧
    (merge_with_existing today existing new).2.1.map Prod.fst = new ∧
    ∀ p ∈ (merge_with_existing today existing new).2.1, p.2 = 1 := by
  refine ⟨?_, ?_, ?_, ?_⟩
  · simp only [merge_with_existing, List.map_map]
    rw [show (Prod.fst ∘ fun r : AttendanceRecord => (r, (0 : Nat))) = id from rfl,
      List.map_id]
  · intro p hp
    simp only [merge_with_existing, List.mem_map] at hp
    obtain ⟨r, _, heq⟩ := hp
    rw [← heq]
  · simp only [merge_with_existing, List.map_map]
    rw [show (Prod.fst ∘ fun r : AttendanceRecord => (r, (1 : Nat))) = id from rfl,
      List.map_id]
  · intro p hp
    simp only [merge_with_existing, List.mem_map] at hp
    obtain ⟨r, _, heq⟩ := hp
    rw [← heq]

/-- Claim C10: a table with session columns but no surviving member row
(all names missing or disclaimer-prefixed) transforms to the empty record
list — `Except.ok []`, not an error; only missing session columns error. -/
theorem transform_no_members (t : WideTable)
    (hS : _extract_session_info t ≠ [])
    (hnone : ∀ n ∈ t.names, keptName n = false) :
    transform_file t = Except.ok [] := by
  rw [transform_file_ok t hS, keptFrom_nil 0 t.names hnone]
  simp [flatMap_const_nil]

/-- Witness for C10 on a concrete table whose two rows are a missing name and
a disclaimer row. -/
theorem transform_no_members_witness : transform_file tN = Except.ok [] :=
  transform_no_members tN (by decide) (by decide)

end SpondAttendance
